import Mathlib

/-!
Verification development for the dictation/spelling interface.

The source is a single React component.  We embed the parts the
properties speak about: the cipher-game state machine (hide/unhide
tiles, tile bank, slot placement, answer check), the speech playback
controller (speakWord with cancel, markup stripping, rate and the
playing-id lifecycle callbacks), the reveal tracker, the section row
rendering with empty placeholders, and the default voice selection.

React useState fields become record fields; each event handler becomes
a state-to-state function, except tile hiding, whose bank shuffle
(a sort by Math.random) is embedded as a relation quantified over the
resulting permutation.
-/

/-- Modelled from the spec: the tile produced by the tile-decomposition
collaborator parseWordToTiles (its module utils is absent from the
provided sources); the spec gives Tile as a pair of text and kind. -/
structure TileData where
  text : String
  kind : String
deriving DecidableEq

/-- Modelled from the spec: pure function mapping a word string to an
ordered sequence of phonetic tiles (absent from the provided sources);
modelled as one tile per character.  No settled property depends on the
exact decomposition. -/
def parseWordToTiles (word : String) : List TileData :=
  word.toList.map (fun c => { text := c.toString, kind := "letter" })

/-- Result of the cipher answer check (checkResult state). -/
inductive CheckResult where
  | correct
  | incorrect
deriving DecidableEq

/-- The cipher-game slice of the component state.  The JS object
draggedTiles (a record from slot index to tile) is embedded as a
key-unique association list; bankTiles keeps the source order of the
bank entries, each carrying its string id. -/
structure GameState where
  cipherWord : Option String
  cipherTiles : List TileData
  hiddenIndices : Finset ℕ
  draggedTiles : List (ℕ × TileData)
  bankTiles : List (String × TileData)
  checkResult : Option CheckResult
  selectedBankTile : Option String

/-- The bank id assigned when tile index is hidden. -/
def bankId (index : ℕ) : String := "bank-" ++ toString index

/-- The bank id assigned when a placed tile is returned to the bank;
the source uses the wall clock, embedded as an explicit argument. -/
def bankReturnedId (now : ℕ) : String := "bank-returned-" ++ toString now

/-- Property access on the draggedTiles record: first (and, in every
state the handlers build, only) entry at the key. -/
def lookupTile (l : List (ℕ × TileData)) (k : ℕ) : Option TileData :=
  match l with
  | [] => none
  | p :: rest => if p.1 = k then some p.2 else lookupTile rest k

/-- Unhide branch of toggleTileHidden: drops the index from
hiddenIndices, filters the entry with id bank-index out of the bank,
deletes the placement at the index, and resets checkResult. -/
def unhideResult (index : ℕ) (s : GameState) : GameState :=
  { s with
    hiddenIndices := s.hiddenIndices.erase index,
    bankTiles := s.bankTiles.filter (fun e => e.1 ≠ bankId index),
    draggedTiles := s.draggedTiles.filter (fun p => p.1 ≠ index),
    checkResult := none }

/-- Hide branch of toggleTileHidden: inserts the index into
hiddenIndices, replaces the bank by the appended-then-shuffled list
(supplied as newBank, constrained to a permutation where the branch is
used), and resets checkResult.  The placement map is not touched. -/
def hideResult (index : ℕ) (_tile : TileData) (newBank : List (String × TileData))
    (s : GameState) : GameState :=
  { s with
    hiddenIndices := insert index s.hiddenIndices,
    bankTiles := newBank,
    checkResult := none }

/-- The toggleTileHidden handler.  The hide branch shuffles the bank by
sorting with Math.random, so it is embedded as a relation: any
permutation of the previous bank with the new entry appended is a
possible result.  The branch reads the tile at the index
(cipherTiles at index); the handler is only invoked from tiles rendered
from cipherTiles, so the index is in range, captured by the
get? premise. -/
inductive ToggleTileHidden (index : ℕ) (s : GameState) : GameState → Prop
  | unhide (h : index ∈ s.hiddenIndices) :
      ToggleTileHidden index s (unhideResult index s)
  | hide (h : index ∉ s.hiddenIndices) (tile : TileData)
      (ht : s.cipherTiles.get? index = some tile)
      (newBank : List (String × TileData))
      (hperm : newBank.Perm (s.bankTiles ++ [(bankId index, tile)])) :
      ToggleTileHidden index s (hideResult index tile newBank s)

/-- The handleBankTileClick handler: toggles the single selection. -/
def handleBankTileClick (bid : String) (s : GameState) : GameState :=
  { s with selectedBankTile := if s.selectedBankTile = some bid then none else some bid }

/-- The handleSlotClick handler.  Guard: the clicked index must be a
hidden slot.  With a bank tile selected and found, places it (record
update embedded as key-unique overwrite), removes it from the bank and
clears the selection; with a selection that is no longer in the bank,
does nothing; with no selection and a filled slot, returns the placed
tile to the bank under a wall-clock id (now argument). -/
def handleSlotClick (now : ℕ) (index : ℕ) (s : GameState) : GameState :=
  if index ∉ s.hiddenIndices then s
  else
    match s.selectedBankTile with
    | some sel =>
      match s.bankTiles.find? (fun b => b.1 = sel) with
      | some bankItem =>
        { s with
          draggedTiles := s.draggedTiles.filter (fun p => p.1 ≠ index) ++ [(index, bankItem.2)],
          bankTiles := s.bankTiles.filter (fun b => b.1 ≠ sel),
          selectedBankTile := none,
          checkResult := none }
      | none => s
    | none =>
      match lookupTile s.draggedTiles index with
      | some tileToRemove =>
        { s with
          draggedTiles := s.draggedTiles.filter (fun p => p.1 ≠ index),
          bankTiles := s.bankTiles ++ [(bankReturnedId now, tileToRemove)],
          checkResult := none }
      | none => s

/-- The initCipherGame handler: loads a word, decomposes it, and resets
hiddenIndices, draggedTiles, bankTiles and checkResult.  The bank-tile
selection is not reset by the source, so it is carried over. -/
def initCipherGame (word : String) (s : GameState) : GameState :=
  { s with
    cipherWord := some word,
    cipherTiles := parseWordToTiles word,
    hiddenIndices := ∅,
    draggedTiles := [],
    bankTiles := [],
    checkResult := none }

/-- The body of the check loop is defined at every hidden index: both
the placement record access and the cipherTiles access yield a value
(in JS, an undefined access inside the loop would throw). -/
def CheckDefined (s : GameState) : Prop :=
  ∀ i ∈ s.hiddenIndices,
    (lookupTile s.draggedTiles i).isSome = true ∧ (s.cipherTiles.get? i).isSome = true

/-- The check loop finds every placed tile text equal to the original
tile text at its hidden index.  The loop is a conjunction over the set,
hence independent of the Set iteration order. -/
def AllMatch (s : GameState) : Prop :=
  ∀ i ∈ s.hiddenIndices,
    (lookupTile s.draggedTiles i).map TileData.text = (s.cipherTiles.get? i).map TileData.text

instance (s : GameState) : Decidable (CheckDefined s) := by
  unfold CheckDefined; infer_instance

instance (s : GameState) : Decidable (AllMatch s) := by
  unfold AllMatch; infer_instance

/-- The checkCipherAnswer handler.  Early return (state unchanged) when
the placement count differs from the number of hidden indices;
otherwise evaluates the comparison loop and stores the verdict.  The
none result embeds the JS TypeError thrown by an undefined property
access inside the loop (never reached from reachable states).  On a
stored verdict the source also invokes speakWord with a single
argument, i.e. with no item id; the playback side effect is embedded
separately by speakWord. -/
def checkCipherAnswer (s : GameState) : Option GameState :=
  if s.draggedTiles.length ≠ s.hiddenIndices.card then
    some s
  else if CheckDefined s then
    some { s with
      checkResult := some (if AllMatch s then CheckResult.correct else CheckResult.incorrect) }
  else
    none

/-- One user-interface event of the cipher game. -/
inductive GameStep : GameState → GameState → Prop
  | toggleHidden (s s' : GameState) (i : ℕ) (h : ToggleTileHidden i s s') : GameStep s s'
  | bankClick (s : GameState) (bid : String) : GameStep s (handleBankTileClick bid s)
  | slotClick (s : GameState) (now i : ℕ) : GameStep s (handleSlotClick now i s)
  | check (s s' : GameState) (h : checkCipherAnswer s = some s') : GameStep s s'
  | load (s : GameState) (w : String) : GameStep s (initCipherGame w s)

/-- States of the cipher game reachable from loading some word (from an
arbitrary prior component state) through the event handlers. -/
inductive GameReachable : GameState → Prop
  | load (w : String) (s : GameState) : GameReachable (initCipherGame w s)
  | step {s s' : GameState} (h : GameReachable s) (hs : GameStep s s') : GameReachable s'

/-- Structural invariant of the game state: placement keys are unique,
every placement key is a hidden index, every hidden index is in range
of the tile list, and a stored verdict implies every hidden index is
placed. -/
def GameInv (s : GameState) : Prop :=
  (s.draggedTiles.map Prod.fst).Nodup ∧
  (∀ p ∈ s.draggedTiles, p.1 ∈ s.hiddenIndices) ∧
  (∀ i ∈ s.hiddenIndices, i < s.cipherTiles.length) ∧
  (s.checkResult ≠ none → ∀ i ∈ s.hiddenIndices, (lookupTile s.draggedTiles i).isSome = true)

/-- Every hidden index has a placement (the coverage premise of the
check). -/
def Covered (s : GameState) : Prop :=
  ∀ i ∈ s.hiddenIndices, (lookupTile s.draggedTiles i).isSome = true

instance (s : GameState) : Decidable (Covered s) := by
  unfold Covered; infer_instance

/-- The tile at hidden index i occurs (as a value) in the bank. -/
def tileInBank (s : GameState) (i : ℕ) : Prop :=
  ∃ e ∈ s.bankTiles, s.cipherTiles.get? i = some e.2

/-- The tile at hidden index i occurs (as a value) among the placed
tiles. -/
def tileInPlaced (s : GameState) (i : ℕ) : Prop :=
  ∃ p ∈ s.draggedTiles, s.cipherTiles.get? i = some p.2

instance (s : GameState) (i : ℕ) : Decidable (tileInBank s i) := by
  unfold tileInBank; infer_instance

instance (s : GameState) (i : ℕ) : Decidable (tileInPlaced s i) := by
  unfold tileInPlaced; infer_instance

/-- The claimed invariant: every hidden index has its tile present in
exactly one of the bank and the placements. -/
def HiddenTileExactlyOnce (s : GameState) : Prop :=
  ∀ i ∈ s.hiddenIndices,
    (tileInBank s i ∨ tileInPlaced s i) ∧ ¬ (tileInBank s i ∧ tileInPlaced s i)

instance (s : GameState) : Decidable (HiddenTileExactlyOnce s) := by
  unfold HiddenTileExactlyOnce; infer_instance

/-- Fallback tile for out-of-range access in the bag of hidden tiles;
never reached under the in-range invariant. -/
def defaultTile : TileData := { text := "", kind := "" }

/-- Multiset of tile values held jointly by the bank and the
placements. -/
def gameTileBag (s : GameState) : Multiset TileData :=
  (s.bankTiles.map Prod.snd : Multiset TileData) + (s.draggedTiles.map Prod.snd : Multiset TileData)

/-- Multiset of the original tiles at the hidden indices. -/
def hiddenTileBag (s : GameState) : Multiset TileData :=
  s.hiddenIndices.val.map (fun i => s.cipherTiles.getD i defaultTile)

/-- Tile conservation: the bank and the placements jointly hold exactly
the tiles of the hidden indices, one occurrence each. -/
def TileConservation (s : GameState) : Prop :=
  gameTileBag s = hiddenTileBag s

/-- A speech-synthesis voice as the component sees it: display name,
BCP-47 language tag and its URI key. -/
structure Voice where
  name : String
  lang : String
  voiceURI : String
deriving DecidableEq

/-- The pattern list is a prefix of the character list. -/
def charsStartWith : List Char → List Char → Bool
  | _, [] => true
  | [], _ :: _ => false
  | a :: as, b :: bs => (a = b) && charsStartWith as bs

/-- The pattern list occurs contiguously in the character list. -/
def charsContain : List Char → List Char → Bool
  | [], pat => pat.isEmpty
  | c :: rest, pat => charsStartWith (c :: rest) pat || charsContain rest pat

/-- JS String.prototype.includes: substring containment. -/
def strIncludes (s pat : String) : Bool :=
  charsContain s.toList pat.toList

/-- True exactly on the characters the source strips from speech text:
slash, backslash, the two curly braces, the two square brackets and the
hyphen (written by character code to keep them out of string
literals). -/
def isMarkupChar (c : Char) : Bool :=
  c.toNat ∈ [47, 92, 123, 125, 91, 93, 45]

/-- Global replacement of the markup character class by the empty
string, character by character. -/
def cleanChars : List Char → List Char
  | [] => []
  | c :: rest => if isMarkupChar c then cleanChars rest else c :: cleanChars rest

/-- The cleanText value of speakWord: the input text with every markup
character removed. -/
def cleanText (text : String) : String :=
  String.mk (cleanChars text.toList)

/-- An utterance as built by speakWord: the optional item id its
lifecycle callbacks close over (none when speakWord was called with a
single argument, in which case no callbacks are attached), the cleaned
text, the resolved voice, the rate, and whether its start event has
fired. -/
structure Utter where
  id : Option String
  text : String
  voice : Option Voice
  rate : ℚ
  started : Bool

/-- The playback-related slice of the component state together with the
speech engine: the voice list and selection, the slow toggle, the
single playing-item id, the ids of cancelled utterances whose end or
error events are still to fire, and the utterance currently owned by
the engine. -/
structure SpeechState where
  voices : List Voice
  selectedVoiceURI : String
  isSlow : Bool
  playingId : Option String
  cancelled : List (Option String)
  current : Option Utter

/-- The speakWord handler: cancels any in-flight utterance (its pending
end or error event joins the cancelled queue), then hands the engine a
new utterance with the cleaned text, the resolved voice, rate 0.5 when
the slow toggle is on and 0.9 otherwise, and callbacks attached exactly
when an id was passed. -/
def speakWord (text : String) (oid : Option String) (s : SpeechState) : SpeechState :=
  { s with
    cancelled := s.cancelled ++ (s.current.map Utter.id).toList,
    current := some
      { id := oid,
        text := cleanText text,
        voice := if s.selectedVoiceURI ≠ "" then
            s.voices.find? (fun v => v.voiceURI = s.selectedVoiceURI)
          else none,
        rate := if s.isSlow then (0.5 : ℚ) else 0.9,
        started := false } }

/-- Engine start event of the current utterance: its onstart callback
(attached exactly when it carries an id) sets playingId. -/
def utterStart (u : Utter) (s : SpeechState) : SpeechState :=
  { s with
    playingId := match u.id with | some i => some i | none => s.playingId,
    current := some { u with started := true } }

/-- Engine end or error event of the current utterance: its onend or
onerror callback (attached exactly when it carries an id) clears
playingId; the engine drops the utterance. -/
def utterFinish (u : Utter) (s : SpeechState) : SpeechState :=
  { s with
    playingId := if u.id.isSome then none else s.playingId,
    current := none }

/-- Delivery of the pending end or error event of the oldest cancelled
utterance: its callback, when it had an id, clears playingId. -/
def fireCancelledEvent (c : Option String) (rest : List (Option String))
    (s : SpeechState) : SpeechState :=
  { s with
    playingId := if c.isSome then none else s.playingId,
    cancelled := rest }

/-- Modelled from the spec: the speech engine (a browser capability,
not part of the sources) serializes requests; cancellation makes the
old utterance's end or error event fire, and pending cancelled events
are delivered before the current utterance starts or finishes.  The
speak and config steps are the component's own handlers. -/
inductive EngineStep : SpeechState → SpeechState → Prop
  | speak (s : SpeechState) (text : String) (oid : Option String) :
      EngineStep s (speakWord text oid s)
  | flushCancelled (s : SpeechState) (c : Option String) (rest : List (Option String))
      (h : s.cancelled = c :: rest) :
      EngineStep s (fireCancelledEvent c rest s)
  | start (s : SpeechState) (u : Utter) (hq : s.cancelled = [])
      (hc : s.current = some u) (hs : u.started = false) :
      EngineStep s (utterStart u s)
  | finish (s : SpeechState) (u : Utter) (hq : s.cancelled = [])
      (hc : s.current = some u) :
      EngineStep s (utterFinish u s)
  | config (s : SpeechState) (vs : List Voice) (sel : String) (slow : Bool) :
      EngineStep s { s with voices := vs, selectedVoiceURI := sel, isSlow := slow }

/-- Playback states reachable from an idle engine (any voice
configuration, nothing playing, nothing queued). -/
inductive SpeechReachable : SpeechState → Prop
  | init (voices : List Voice) (sel : String) (slow : Bool) :
      SpeechReachable ⟨voices, sel, slow, none, [], none⟩
  | step {s s' : SpeechState} (h : SpeechReachable s) (hs : EngineStep s s') :
      SpeechReachable s'

/-- Invariant of the playback model: a marked playing id belongs either
to the started current utterance (with no pending cancelled events) or
to a cancelled utterance whose clearing event is still pending. -/
def PlayInv (s : SpeechState) : Prop :=
  ∀ x, s.playingId = some x →
    (∃ u, s.current = some u ∧ u.id = some x ∧ u.started = true ∧ s.cancelled = []) ∨
    some x ∈ s.cancelled

/-- The toggleReveal handler on the revealedIds set: delete the id when
present, insert it otherwise. -/
def toggleReveal (id : String) (revealedIds : Finset String) : Finset String :=
  if id ∈ revealedIds then revealedIds.erase id else insert id revealedIds

/-- One row of a section body: a configured item, or one of the empty
placeholder slots appended after the items (carrying its displayed
number). -/
inductive SectionRow where
  | item (text : String)
  | placeholder (number : ℕ)
deriving DecidableEq

/-- Number of empty placeholder rows: the larger of zero and the
configured count minus the item count (JS Math.max over a possibly
negative difference). -/
def sectionPlaceholderCount (count len : ℕ) : ℕ :=
  (max 0 ((count : ℤ) - (len : ℤ))).toNat

/-- The rows a section renders: one row per supplied item, in order,
followed by the empty placeholders numbered from the item count plus
one.  When the item list is empty the source shows a static notice in
place of the item rows; the notice is modelled separately by
sectionShowsEmptyNotice and is not a row. -/
def sectionRows (count : ℕ) (items : List String) : List SectionRow :=
  items.map SectionRow.item ++
    (List.range (sectionPlaceholderCount count items.length)).map
      (fun k => SectionRow.placeholder (items.length + k + 1))

/-- The source renders a static no-items notice exactly when the item
list is empty. -/
def sectionShowsEmptyNotice (items : List String) : Bool :=
  items.isEmpty

/-- The default-voice choice of loadVoices, operating on the voice list
(after the source's initial reordering of en-US voices toward the
front, whose inconsistent Math-free comparator leaves the exact order
implementation-defined; the theorems below quantify over the order):
first a voice named Google US English, else a voice whose name contains
Natural, else an en-US voice, else the first voice. -/
def pickDefaultVoice (vs : List Voice) : Option Voice :=
  match vs.find? (fun v => strIncludes v.name "Google US English") with
  | some v => some v
  | none =>
    match vs.find? (fun v => strIncludes v.name "Natural") with
    | some v => some v
    | none =>
      match vs.find? (fun v => v.lang = "en-US") with
      | some v => some v
      | none => vs.head?

/-- The guarded selection update of loadVoices: only when no voice is
selected yet (the state is initialized to the empty string) and the
list is non-empty does the default choice overwrite the selection. -/
def loadVoicesSelect (selectedVoiceURI : String) (vs : List Voice) : String :=
  if selectedVoiceURI = "" ∧ 0 < vs.length then
    match pickDefaultVoice vs with
    | some v => v.voiceURI
    | none => selectedVoiceURI
  else selectedVoiceURI

/-- A cipher-game state before any word is loaded. -/
def blankGameState : GameState :=
  { cipherWord := none, cipherTiles := [], hiddenIndices := ∅,
    draggedTiles := [], bankTiles := [], checkResult := none,
    selectedBankTile := none }

/-- Concrete tile values of the two-letter word used in the concrete
runs below. -/
def tA : TileData := { text := "a", kind := "letter" }

/-- Second tile of the concrete word. -/
def tB : TileData := { text := "b", kind := "letter" }

/-- Concrete run: load the word ab. -/
def gameA : GameState := initCipherGame "ab" blankGameState

/-- Concrete run: hide tile 0 (identity shuffle). -/
def gameB : GameState := hideResult 0 tA [(bankId 0, tA)] gameA

/-- Concrete run: hide tile 1 (identity shuffle). -/
def gameC : GameState := hideResult 1 tB [(bankId 0, tA), (bankId 1, tB)] gameB

/-- Concrete run: select the bank tile of index 1. -/
def gameD : GameState := handleBankTileClick (bankId 1) gameC

/-- Concrete run: place the selected tile into slot 0 (the wrong
slot). -/
def gameE : GameState := handleSlotClick 7 0 gameD

/-- Concrete run: unhide index 0 while index 1's tile is placed at
slot 0. -/
def gameF : GameState := unhideResult 0 gameE

/-- A voice named Natural that is not U.S. English. -/
def voiceNaturalFr : Voice :=
  { name := "Amelie Natural", lang := "fr-FR", voiceURI := "uri-amelie" }

/-- A plain U.S. English voice. -/
def voicePlainUS : Voice :=
  { name := "Samantha", lang := "en-US", voiceURI := "uri-samantha" }

lemma lookupTile_eq_none_iff (l : List (ℕ × TileData)) (k : ℕ) :
    lookupTile l k = none ↔ ∀ p ∈ l, p.1 ≠ k := by
  induction l with
  | nil => simp [lookupTile]
  | cons p rest ih =>
    by_cases h : p.1 = k <;> simp [lookupTile, h, ih]

lemma lookupTile_isSome_iff (l : List (ℕ × TileData)) (k : ℕ) :
    (lookupTile l k).isSome = true ↔ ∃ p ∈ l, p.1 = k := by
  induction l with
  | nil => simp [lookupTile]
  | cons p rest ih =>
    by_cases h : p.1 = k <;> simp [lookupTile, h, ih]

lemma lookupTile_filter_ne (l : List (ℕ × TileData)) (k : ℕ) :
    lookupTile (l.filter (fun p => p.1 ≠ k)) k = none := by
  rw [lookupTile_eq_none_iff]
  intro p hp
  have := (List.mem_filter.mp hp).2
  simpa using this

lemma keys_filter_nodup (l : List (ℕ × TileData)) (q : ℕ × TileData → Bool)
    (h : (l.map Prod.fst).Nodup) : ((l.filter q).map Prod.fst).Nodup :=
  h.sublist ((List.filter_sublist l).map Prod.fst)

lemma mem_keys_filter_ne (l : List (ℕ × TileData)) (k k' : ℕ)
    (h : k' ∈ (l.filter (fun p => p.1 ≠ k)).map Prod.fst) : k' ≠ k := by
  rcases List.mem_map.mp h with ⟨p, hp, rfl⟩
  have := (List.mem_filter.mp hp).2
  simpa using this

lemma index_lt_of_get?_eq_some {l : List TileData} {i : ℕ} {t : TileData}
    (h : l.get? i = some t) : i < l.length := by
  by_contra hlt
  rw [List.get?_eq_none.mpr (le_of_not_lt hlt)] at h
  exact Option.noConfusion h

/-- Keys of a key-unique association list covering a finite set of the
same cardinality give a bijection: the key set equals the finite set. -/
lemma keys_toFinset_eq_of_covered (s : GameState)
    (hsub : ∀ p ∈ s.draggedTiles, p.1 ∈ s.hiddenIndices)
    (hcov : Covered s) :
    (s.draggedTiles.map Prod.fst).toFinset = s.hiddenIndices := by
  apply Finset.Subset.antisymm
  · intro k hk
    rcases List.mem_map.mp (List.mem_toFinset.mp hk) with ⟨p, hp, rfl⟩
    exact hsub p hp
  · intro i hi
    rcases (lookupTile_isSome_iff _ _).mp (hcov i hi) with ⟨p, hp, hpk⟩
    exact List.mem_toFinset.mpr (List.mem_map.mpr ⟨p, hp, hpk⟩)

lemma covered_length_eq (s : GameState)
    (hnd : (s.draggedTiles.map Prod.fst).Nodup)
    (hsub : ∀ p ∈ s.draggedTiles, p.1 ∈ s.hiddenIndices)
    (hcov : Covered s) :
    s.draggedTiles.length = s.hiddenIndices.card := by
  have h1 : (s.draggedTiles.map Prod.fst).toFinset.card = s.draggedTiles.length := by
    rw [List.toFinset_card_of_nodup hnd, List.length_map]
  rw [← h1, keys_toFinset_eq_of_covered s hsub hcov]

lemma not_covered_length_ne (s : GameState)
    (hnd : (s.draggedTiles.map Prod.fst).Nodup)
    (hsub : ∀ p ∈ s.draggedTiles, p.1 ∈ s.hiddenIndices)
    (hncov : ¬ Covered s) :
    s.draggedTiles.length ≠ s.hiddenIndices.card := by
  intro hlen
  apply hncov
  have hsubF : (s.draggedTiles.map Prod.fst).toFinset ⊆ s.hiddenIndices := by
    intro k hk
    rcases List.mem_map.mp (List.mem_toFinset.mp hk) with ⟨p, hp, rfl⟩
    exact hsub p hp
  have hcard : s.hiddenIndices.card ≤ (s.draggedTiles.map Prod.fst).toFinset.card := by
    rw [List.toFinset_card_of_nodup hnd, List.length_map, hlen]
  have heq := Finset.eq_of_subset_of_card_le hsubF hcard
  intro i hi
  rw [← heq] at hi
  rcases List.mem_map.mp (List.mem_toFinset.mp hi) with ⟨p, hp, rfl⟩
  exact (lookupTile_isSome_iff _ _).mpr ⟨p, hp, rfl⟩

/-- Every reachable cipher-game state satisfies the structural
invariant. -/
lemma gameReachable_inv {s : GameState} (h : GameReachable s) : GameInv s := by
  induction h with
  | load w s0 =>
    refine ⟨by simp [initCipherGame], by simp [initCipherGame], by simp [initCipherGame], ?_⟩
    intro hres
    simp [initCipherGame] at hres
  | step hr hs ih =>
    rename_i s0 s1
    obtain ⟨hnd, hsub, hbnd, hres⟩ := ih
    cases hs with
    | toggleHidden _a i htog =>
      cases htog with
      | unhide hmem =>
        refine ⟨keys_filter_nodup _ _ hnd, ?_, ?_, ?_⟩
        · intro p hp
          have hm := List.mem_filter.mp hp
          have hne : p.1 ≠ i := by simpa using hm.2
          exact Finset.mem_erase.mpr ⟨hne, hsub p hm.1⟩
        · intro j hj
          exact hbnd j (Finset.mem_of_mem_erase hj)
        · intro hcr
          simp [unhideResult] at hcr
      | hide hmem tile ht newBank hperm =>
        refine ⟨hnd, ?_, ?_, ?_⟩
        · intro p hp
          exact Finset.mem_insert_of_mem (hsub p hp)
        · intro j hj
          rcases Finset.mem_insert.mp hj with rfl | hj'
          · exact index_lt_of_get?_eq_some ht
          · exact hbnd j hj'
        · intro hcr
          simp [hideResult] at hcr
    | bankClick bid =>
      exact ⟨hnd, hsub, hbnd, fun hcr => hres hcr⟩
    | slotClick now i =>
      unfold handleSlotClick
      split
      · exact ⟨hnd, hsub, hbnd, hres⟩
      · rename_i hmem
        have himem : i ∈ s0.hiddenIndices := not_not.mp hmem
        split
        · split
          · rename_i sel hsel bankItem hfind
            refine ⟨?_, ?_, hbnd, ?_⟩
            · rw [List.map_append]
              refine List.nodup_append.mpr ⟨keys_filter_nodup _ _ hnd, by simp, ?_⟩
              intro k hk
              have := mem_keys_filter_ne _ _ _ hk
              simpa using this
            · intro p hp
              rcases List.mem_append.mp hp with hp' | hp'
              · exact hsub p (List.mem_filter.mp hp').1
              · have hpi : p = (i, bankItem.2) := by simpa using hp'
                rw [hpi]
                exact himem
            · intro hcr
              simp at hcr
          · exact ⟨hnd, hsub, hbnd, hres⟩
        · split
          · rename_i tileToRemove hlk
            refine ⟨keys_filter_nodup _ _ hnd, ?_, hbnd, ?_⟩
            · intro p hp
              exact hsub p (List.mem_filter.mp hp).1
            · intro hcr
              simp at hcr
          · exact ⟨hnd, hsub, hbnd, hres⟩
    | check _a hck =>
      unfold checkCipherAnswer at hck
      by_cases hlen : s0.draggedTiles.length ≠ s0.hiddenIndices.card
      · rw [if_pos hlen] at hck
        cases hck
        exact ⟨hnd, hsub, hbnd, hres⟩
      · rw [if_neg hlen] at hck
        by_cases hcd : CheckDefined s0
        · rw [if_pos hcd] at hck
          cases hck
          exact ⟨hnd, hsub, hbnd, fun _ => fun i hi => (hcd i hi).1⟩
        · rw [if_neg hcd] at hck
          exact Option.noConfusion hck
    | load w =>
      refine ⟨by simp [initCipherGame], by simp [initCipherGame], by simp [initCipherGame], ?_⟩
      intro hres'
      simp [initCipherGame] at hres'

/-- C9: in every reachable cipher-game state every placement key is a
hidden index; loadWord starts placements and hidden indices empty,
a slot click on a non-hidden index is a no-op, and unhiding an index
deletes any placement at that index. -/
theorem draggedKeys_subset_hidden (w : String) (s0 s : GameState) (now i : ℕ) :
    ((initCipherGame w s0).draggedTiles = [] ∧ (initCipherGame w s0).hiddenIndices = ∅) ∧
    (i ∉ s.hiddenIndices → handleSlotClick now i s = s) ∧
    lookupTile (unhideResult i s).draggedTiles i = none ∧
    (GameReachable s → ∀ p ∈ s.draggedTiles, p.1 ∈ s.hiddenIndices) := by
  refine ⟨⟨rfl, rfl⟩, ?_, ?_, ?_⟩
  · intro h
    unfold handleSlotClick
    rw [if_pos h]
  · exact lookupTile_filter_ne s.draggedTiles i
  · intro hr
    exact (gameReachable_inv hr).2.1

/-- Witness for draggedKeys_subset_hidden at a concrete freshly loaded
game. -/
theorem draggedKeys_subset_hidden_witness :
    handleSlotClick 0 0 (initCipherGame "ab" blankGameState) = initCipherGame "ab" blankGameState ∧
    (∀ p ∈ (initCipherGame "ab" blankGameState).draggedTiles,
      p.1 ∈ (initCipherGame "ab" blankGameState).hiddenIndices) :=
  ⟨(draggedKeys_subset_hidden "ab" blankGameState (initCipherGame "ab" blankGameState) 0 0).2.1
      (by decide),
   (draggedKeys_subset_hidden "ab" blankGameState (initCipherGame "ab" blankGameState) 0 0).2.2.2
      (GameReachable.load "ab" blankGameState)⟩

/-- C2: on every reachable state, checkCipherAnswer is an unchanged
no-op (with the result still none) whenever some hidden index lacks a
placement, and otherwise stores correct exactly when every placed tile
text equals the original tile text at its index, incorrect
otherwise. -/
theorem checkCipherAnswer_spec (s : GameState) (hr : GameReachable s) :
    (¬ Covered s → checkCipherAnswer s = some s ∧ s.checkResult = none) ∧
    (Covered s → checkCipherAnswer s = some { s with
      checkResult := some (if AllMatch s then CheckResult.correct else CheckResult.incorrect) }) := by
  obtain ⟨hnd, hsub, hbnd, hres⟩ := gameReachable_inv hr
  constructor
  · intro hncov
    have hlen := not_covered_length_ne s hnd hsub hncov
    constructor
    · unfold checkCipherAnswer
      rw [if_pos hlen]
    · by_contra hne
      exact hncov (hres hne)
  · intro hcov
    have hlen := covered_length_eq s hnd hsub hcov
    have hcd : CheckDefined s := by
      intro i hi
      refine ⟨hcov i hi, ?_⟩
      rw [List.get?_eq_get (hbnd i hi)]
      rfl
    unfold checkCipherAnswer
    rw [if_neg (show ¬ s.draggedTiles.length ≠ s.hiddenIndices.card from fun h => h hlen),
      if_pos hcd]

/-- Witness for checkCipherAnswer_spec at a freshly loaded game, where
coverage is vacuous. -/
theorem checkCipherAnswer_spec_witness :
    checkCipherAnswer (initCipherGame "ab" blankGameState) = some { initCipherGame "ab" blankGameState with
      checkResult := some (if AllMatch (initCipherGame "ab" blankGameState) then CheckResult.correct else CheckResult.incorrect) } :=
  (checkCipherAnswer_spec (initCipherGame "ab" blankGameState)
    (GameReachable.load "ab" blankGameState)).2 (by decide)

/-- C3: hiding a non-hidden tile and then immediately unhiding it
restores the pre-hide situation of that slot: the index is not hidden,
no bank entry with its bank id remains, and the slot has no
placement. -/
theorem hide_then_unhide_restores_slot (s s1 s2 : GameState) (i : ℕ)
    (h0 : i ∉ s.hiddenIndices)
    (h1 : ToggleTileHidden i s s1) (h2 : ToggleTileHidden i s1 s2) :
    i ∉ s2.hiddenIndices ∧ (∀ e ∈ s2.bankTiles, e.1 ≠ bankId i) ∧
      lookupTile s2.draggedTiles i = none := by
  cases h1 with
  | unhide hmem => exact absurd hmem h0
  | hide hmem tile ht newBank hperm =>
    cases h2 with
    | unhide hmem2 =>
      refine ⟨Finset.not_mem_erase i _, ?_, lookupTile_filter_ne _ _⟩
      intro e he
      have h2' := (List.mem_filter.mp he).2
      simpa using h2'
    | hide hmem2 tile2 ht2 newBank2 hperm2 =>
      exact absurd (Finset.mem_insert_self i _) hmem2

/-- Witness for hide_then_unhide_restores_slot on a concrete one-letter
game. -/
theorem hide_then_unhide_restores_slot_witness :
    0 ∉ (unhideResult 0 (hideResult 0 tA [(bankId 0, tA)] (initCipherGame "a" blankGameState))).hiddenIndices ∧
    (∀ e ∈ (unhideResult 0 (hideResult 0 tA [(bankId 0, tA)] (initCipherGame "a" blankGameState))).bankTiles,
      e.1 ≠ bankId 0) ∧
    lookupTile (unhideResult 0 (hideResult 0 tA [(bankId 0, tA)] (initCipherGame "a" blankGameState))).draggedTiles 0 = none :=
  hide_then_unhide_restores_slot (initCipherGame "a" blankGameState) _ _ 0 (by decide)
    (ToggleTileHidden.hide (by decide) tA (by decide) [(bankId 0, tA)] (List.Perm.refl _))
    (ToggleTileHidden.unhide (by decide))

/-- C1 counterexample: the concrete run gameA .. gameF is reachable,
satisfies the claimed exactly-once invariant up to the placement of
index 1's tile into slot 0 (gameE), and unhiding index 0 then breaks
it: in gameF index 1 is still hidden while its tile is present in
neither the bank nor the placements. -/
theorem hiddenTile_exactlyOnce_counterexample :
    GameReachable gameF ∧ HiddenTileExactlyOnce gameE ∧ ¬ HiddenTileExactlyOnce gameF := by
  refine ⟨?_, by decide, by decide⟩
  have h1 : GameReachable gameA := GameReachable.load "ab" blankGameState
  have h2 : GameReachable gameB :=
    h1.step (GameStep.toggleHidden gameA gameB 0
      (ToggleTileHidden.hide (by decide) tA (by decide) [(bankId 0, tA)] (List.Perm.refl _)))
  have h3 : GameReachable gameC :=
    h2.step (GameStep.toggleHidden gameB gameC 1
      (ToggleTileHidden.hide (by decide) tB (by decide) [(bankId 0, tA), (bankId 1, tB)]
        (List.Perm.refl _)))
  have h4 : GameReachable gameD := h3.step (GameStep.bankClick gameC (bankId 1))
  have h5 : GameReachable gameE := h4.step (GameStep.slotClick gameD 7 0)
  have h6 : GameReachable gameF :=
    h5.step (GameStep.toggleHidden gameE gameF 0 (ToggleTileHidden.unhide (by decide)))
  exact h6

lemma filter_ne_of_lookupTile_none (l : List (ℕ × TileData)) (k : ℕ)
    (h : lookupTile l k = none) : l.filter (fun p => p.1 ≠ k) = l := by
  rw [List.filter_eq_self]
  intro p hp
  have := (lookupTile_eq_none_iff l k).mp h p hp
  simpa using this

lemma filter_key_eq_of_lookupTile (l : List (ℕ × TileData)) (k : ℕ) (t : TileData)
    (hnd : (l.map Prod.fst).Nodup) (hlk : lookupTile l k = some t) :
    l.filter (fun p => p.1 = k) = [(k, t)] := by
  induction l with
  | nil => simp [lookupTile] at hlk
  | cons p rest ih =>
    rw [List.map_cons, List.nodup_cons] at hnd
    by_cases h : p.1 = k
    · rw [lookupTile, if_pos h] at hlk
      have hpt : p = (k, t) := by
        cases hlk
        cases p
        simp_all
      have hrest : rest.filter (fun p => p.1 = k) = [] := by
        rw [List.filter_eq_nil_iff]
        intro q hq
        intro hqk
        apply hnd.1
        rw [h]
        rw [← (by simpa using hqk : q.1 = k)]
        exact List.mem_map.mpr ⟨q, hq, rfl⟩
      rw [List.filter_cons, if_pos (by simpa using h), hrest, hpt]
    · rw [lookupTile, if_neg h] at hlk
      rw [List.filter_cons, if_neg (by simpa using h)]
      exact ih hnd.2 hlk

lemma assocBag_split {κ : Type} [DecidableEq κ] (l : List (κ × TileData)) (b : κ) :
    ((l.map Prod.snd : List TileData) : Multiset TileData) =
      ((l.filter (fun e => e.1 = b)).map Prod.snd : List TileData) +
      ((l.filter (fun e => e.1 ≠ b)).map Prod.snd : List TileData) := by
  have hfun : (fun (e : κ × TileData) => !(decide (e.1 = b))) = (fun e => decide (e.1 ≠ b)) := by
    funext e
    simp [decide_not]
  have hperm : (l.filter (fun e => e.1 = b) ++ l.filter (fun e => e.1 ≠ b)).Perm l := by
    have h := List.filter_append_perm (fun e => decide (e.1 = b)) l
    rw [hfun] at h
    exact h
  calc ((l.map Prod.snd : List TileData) : Multiset TileData)
      = (((l.filter (fun e => e.1 = b) ++ l.filter (fun e => e.1 ≠ b)).map Prod.snd : List TileData) : Multiset TileData) :=
        (Multiset.coe_eq_coe.mpr (hperm.map Prod.snd)).symm
    _ = _ := by rw [List.map_append, ← Multiset.coe_add]

lemma find?_of_filter_singleton {α : Type} (p : α → Bool) (l : List α) (a : α)
    (h : l.filter p = [a]) : l.find? p = some a := by
  induction l with
  | nil => simp at h
  | cons x rest ih =>
    by_cases hx : p x
    · rw [List.filter_cons, if_pos hx] at h
      have hxa : x = a := (List.cons.injEq _ _ _ _ ▸ h).1
      subst hxa
      simp [List.find?, hx]
    · rw [List.filter_cons, if_neg hx] at h
      simp only [List.find?, hx]
      exact ih h

lemma getD_of_get?_eq_some {l : List TileData} {i : ℕ} {t : TileData}
    (h : l.get? i = some t) : l.getD i defaultTile = t := by
  rw [List.getD_eq_getD_get?, h]
  rfl

lemma tileConservation_init (w : String) (s0 : GameState) :
    TileConservation (initCipherGame w s0) := by
  simp [TileConservation, gameTileBag, hiddenTileBag, initCipherGame]

lemma tileConservation_hide (s : GameState) (i : ℕ) (tile : TileData)
    (newBank : List (String × TileData))
    (hcons : TileConservation s) (hmem : i ∉ s.hiddenIndices)
    (hget : s.cipherTiles.get? i = some tile)
    (hperm : newBank.Perm (s.bankTiles ++ [(bankId i, tile)])) :
    TileConservation (hideResult i tile newBank s) := by
  show ((newBank.map Prod.snd : List TileData) : Multiset TileData) +
      (s.draggedTiles.map Prod.snd : List TileData) =
    (insert i s.hiddenIndices).val.map (fun j => s.cipherTiles.getD j defaultTile)
  have hnb : ((newBank.map Prod.snd : List TileData) : Multiset TileData) =
      (s.bankTiles.map Prod.snd : List TileData) +
        (([(bankId i, tile)].map Prod.snd : List TileData) : Multiset TileData) := by
    rw [Multiset.coe_eq_coe.mpr (hperm.map Prod.snd), List.map_append, ← Multiset.coe_add]
  have hins : (insert i s.hiddenIndices).val.map (fun j => s.cipherTiles.getD j defaultTile) =
      {tile} + s.hiddenIndices.val.map (fun j => s.cipherTiles.getD j defaultTile) := by
    rw [Finset.insert_val_of_not_mem hmem, Multiset.map_cons, getD_of_get?_eq_some hget,
      ← Multiset.singleton_add]
  unfold TileConservation gameTileBag hiddenTileBag at hcons
  rw [hnb, hins, ← hcons]
  simp only [List.map_cons, List.map_nil, Multiset.coe_singleton]
  abel

lemma tileConservation_place (s : GameState) (i now : ℕ) (sel : String)
    (item : String × TileData)
    (hcons : TileConservation s) (hsel : s.selectedBankTile = some sel)
    (hft : s.bankTiles.filter (fun b => b.1 = sel) = [item])
    (hlk : lookupTile s.draggedTiles i = none) :
    TileConservation (handleSlotClick now i s) := by
  unfold handleSlotClick
  by_cases hmem : i ∉ s.hiddenIndices
  · rw [if_pos hmem]
    exact hcons
  · rw [if_neg hmem]
    have hfind : s.bankTiles.find? (fun b => b.1 = sel) = some item :=
      find?_of_filter_singleton _ _ _ hft
    simp only [hsel, hfind]
    show (((s.bankTiles.filter (fun b => b.1 ≠ sel)).map Prod.snd : List TileData) : Multiset TileData) +
        (((s.draggedTiles.filter (fun p => p.1 ≠ i)) ++ [(i, item.2)]).map Prod.snd : List TileData) =
      s.hiddenIndices.val.map (fun j => s.cipherTiles.getD j defaultTile)
    rw [filter_ne_of_lookupTile_none _ _ hlk, List.map_append, ← Multiset.coe_add]
    have hsplit := assocBag_split s.bankTiles sel
    rw [hft] at hsplit
    unfold TileConservation gameTileBag hiddenTileBag at hcons
    rw [hsplit] at hcons
    rw [← hcons]
    simp only [List.map_cons, List.map_nil]
    abel

lemma tileConservation_return (s : GameState) (i now : ℕ)
    (hcons : TileConservation s) (hsel : s.selectedBankTile = none)
    (hnd : (s.draggedTiles.map Prod.fst).Nodup) :
    TileConservation (handleSlotClick now i s) := by
  unfold handleSlotClick
  by_cases hmem : i ∉ s.hiddenIndices
  · rw [if_pos hmem]
    exact hcons
  · rw [if_neg hmem]
    simp only [hsel]
    cases hlk : lookupTile s.draggedTiles i with
    | none =>
      simp only [hlk]
      exact hcons
    | some tr =>
      simp only [hlk]
      show (((s.bankTiles ++ [(bankReturnedId now, tr)]).map Prod.snd : List TileData) : Multiset TileData) +
          ((s.draggedTiles.filter (fun p => p.1 ≠ i)).map Prod.snd : List TileData) =
        s.hiddenIndices.val.map (fun j => s.cipherTiles.getD j defaultTile)
      rw [List.map_append, ← Multiset.coe_add]
      have hsplit := assocBag_split s.draggedTiles i
      rw [filter_key_eq_of_lookupTile _ _ _ hnd hlk] at hsplit
      unfold TileConservation gameTileBag hiddenTileBag at hcons
      rw [hsplit] at hcons
      rw [← hcons]
      simp only [List.map_cons, List.map_nil]
      abel

lemma tileConservation_unhide (s : GameState) (i : ℕ) (t : TileData)
    (hcons : TileConservation s) (hmem : i ∈ s.hiddenIndices)
    (hget : s.cipherTiles.get? i = some t)
    (hlk : lookupTile s.draggedTiles i = none)
    (hbank : s.bankTiles.filter (fun e => e.1 = bankId i) = [(bankId i, t)]) :
    TileConservation (unhideResult i s) := by
  show (((s.bankTiles.filter (fun e => e.1 ≠ bankId i)).map Prod.snd : List TileData) : Multiset TileData) +
      ((s.draggedTiles.filter (fun p => p.1 ≠ i)).map Prod.snd : List TileData) =
    (s.hiddenIndices.erase i).val.map (fun j => s.cipherTiles.getD j defaultTile)
  rw [filter_ne_of_lookupTile_none _ _ hlk]
  have hsplit := assocBag_split s.bankTiles (bankId i)
  rw [hbank] at hsplit
  unfold TileConservation gameTileBag hiddenTileBag at hcons
  rw [hsplit] at hcons
  have hv : s.hiddenIndices.val = i ::ₘ (s.hiddenIndices.erase i).val := by
    rw [Finset.erase_val]
    exact (Multiset.cons_erase (Finset.mem_def.mp hmem)).symm
  rw [hv, Multiset.map_cons, getD_of_get?_eq_some hget] at hcons
  simp only [List.map_cons, List.map_nil] at hcons
  rw [add_assoc, Multiset.coe_singleton, Multiset.singleton_add] at hcons
  exact (Multiset.cons_inj_right t).mp hcons

lemma tileConservation_check (s s' : GameState)
    (hcons : TileConservation s) (hck : checkCipherAnswer s = some s') :
    TileConservation s' := by
  unfold checkCipherAnswer at hck
  split_ifs at hck with h1 h2 h3
  all_goals cases hck
  all_goals exact hcons

/-- C1 amended: the conservation invariant (the bank and the placements
jointly hold exactly the tiles of the hidden indices) is established by
loading a word and preserved by hiding, by selecting a bank tile, by
placing the selected tile into an empty slot when its bank id is held
by exactly one bank entry, by returning a placed tile (unique placement
keys), and by the answer check; unhiding preserves it only when the
unhidden slot holds no placement and the bank still holds exactly the
slot's original entry. -/
theorem tile_conservation_amended (w : String) (s0 s s' : GameState) (i now : ℕ)
    (t tile : TileData) (newBank : List (String × TileData)) (bid sel : String)
    (item : String × TileData) :
    TileConservation (initCipherGame w s0) ∧
    (TileConservation s → i ∉ s.hiddenIndices → s.cipherTiles.get? i = some tile →
      newBank.Perm (s.bankTiles ++ [(bankId i, tile)]) →
      TileConservation (hideResult i tile newBank s)) ∧
    (TileConservation s → TileConservation (handleBankTileClick bid s)) ∧
    (TileConservation s → s.selectedBankTile = some sel →
      s.bankTiles.filter (fun b => b.1 = sel) = [item] →
      lookupTile s.draggedTiles i = none →
      TileConservation (handleSlotClick now i s)) ∧
    (TileConservation s → s.selectedBankTile = none →
      (s.draggedTiles.map Prod.fst).Nodup →
      TileConservation (handleSlotClick now i s)) ∧
    (TileConservation s → i ∈ s.hiddenIndices → s.cipherTiles.get? i = some t →
      lookupTile s.draggedTiles i = none →
      s.bankTiles.filter (fun e => e.1 = bankId i) = [(bankId i, t)] →
      TileConservation (unhideResult i s)) ∧
    (TileConservation s → checkCipherAnswer s = some s' → TileConservation s') :=
  ⟨tileConservation_init w s0,
   fun hc h1 h2 h3 => tileConservation_hide s i tile newBank hc h1 h2 h3,
   fun hc => hc,
   fun hc h1 h2 h3 => tileConservation_place s i now sel item hc h1 h2 h3,
   fun hc h1 h2 => tileConservation_return s i now hc h1 h2,
   fun hc h1 h2 h3 h4 => tileConservation_unhide s i t hc h1 h2 h3 h4,
   fun hc h1 => tileConservation_check s s' hc h1⟩

/-- Witness for tile_conservation_amended: conservation holds after
loading ab and hiding tile 0. -/
theorem tile_conservation_amended_witness : TileConservation gameB :=
  (tile_conservation_amended "ab" blankGameState gameA gameA 0 0 tA tA
      [(bankId 0, tA)] "x" "x" ("x", tA)).2.1
    (tile_conservation_amended "ab" blankGameState gameA gameA 0 0 tA tA
      [(bankId 0, tA)] "x" "x" ("x", tA)).1
    (by decide) (by decide) (List.Perm.refl _)

/-- Every reachable playback state satisfies the playing-id
invariant. -/
lemma speechReachable_playInv {s : SpeechState} (h : SpeechReachable s) : PlayInv s := by
  induction h with
  | init voices sel slow =>
    intro x hx
    exact Option.noConfusion hx
  | step hr hs ih =>
    rename_i s0 s1
    cases hs with
    | speak text oid =>
      intro x hx
      have hx0 : s0.playingId = some x := hx
      rcases ih x hx0 with ⟨u, hu, huid, hust, hq⟩ | hmem
      · right
        show some x ∈ s0.cancelled ++ (s0.current.map Utter.id).toList
        rw [hq, hu]
        simp [huid]
      · right
        show some x ∈ s0.cancelled ++ (s0.current.map Utter.id).toList
        exact List.mem_append_left _ hmem
    | flushCancelled c rest hq =>
      intro x hx
      by_cases hc : c.isSome
      · exfalso
        simp [fireCancelledEvent, hc] at hx
      · have hx0 : s0.playingId = some x := by
          simpa [fireCancelledEvent, hc] using hx
        rcases ih x hx0 with ⟨u, hu, huid, hust, hq0⟩ | hmem
        · rw [hq0] at hq
          exact List.noConfusion hq
        · rw [hq] at hmem
          rcases List.mem_cons.mp hmem with hxc | hxr
          · exfalso
            rw [← hxc] at hc
            exact hc rfl
          · exact Or.inr hxr
    | start u hq hc hs' =>
      intro x hx
      cases huid : u.id with
      | some j =>
        have hxj : j = x := by
          have : some j = some x := by
            simpa [utterStart, huid] using hx
          exact Option.some.inj this
        left
        refine ⟨{ u with started := true }, rfl, ?_, rfl, hq⟩
        simp [huid, hxj]
      | none =>
        have hx0 : s0.playingId = some x := by
          simpa [utterStart, huid] using hx
        rcases ih x hx0 with ⟨u', hu', huid', hust', _⟩ | hmem
        · rw [hc] at hu'
          have : u = u' := Option.some.inj hu'
          rw [← this] at hust'
          rw [hs'] at hust'
          exact Bool.noConfusion hust'
        · rw [hq] at hmem
          exact absurd hmem (List.not_mem_nil _)
    | finish u hq hc =>
      intro x hx
      by_cases hid : u.id.isSome
      · exfalso
        simp [utterFinish, hid] at hx
      · have hx0 : s0.playingId = some x := by
          simpa [utterFinish, hid] using hx
        rcases ih x hx0 with ⟨u', hu', huid', _, _⟩ | hmem
        · exfalso
          rw [hc] at hu'
          have : u = u' := Option.some.inj hu'
          rw [← this] at huid'
          rw [huid'] at hid
          exact hid rfl
        · rw [hq] at hmem
          exact absurd hmem (List.not_mem_nil _)
    | config vs sel slow =>
      intro x hx
      have hx0 : s0.playingId = some x := hx
      rcases ih x hx0 with ⟨u, hu, h1, h2, h3⟩ | hm
      · exact Or.inl ⟨u, hu, h1, h2, h3⟩
      · exact Or.inr hm

/-- C4: on every reachable playback state at most one identifier is
playing; whenever a fresh (unstarted) utterance is ready to start, the
playing id is already cleared (the cancelled predecessor's end or error
event has run); an end or error event of the current utterance always
leaves the playing id cleared; and the start callback of an utterance
carrying an id sets exactly that id. -/
theorem single_playing_id (s : SpeechState) (hr : SpeechReachable s) :
    (∀ x y, s.playingId = some x → s.playingId = some y → x = y) ∧
    (∀ u, s.cancelled = [] → s.current = some u → u.started = false → s.playingId = none) ∧
    (∀ u, s.cancelled = [] → s.current = some u → (utterFinish u s).playingId = none) ∧
    (∀ u i, u.id = some i → (utterStart u s).playingId = some i) := by
  have hinv := speechReachable_playInv hr
  refine ⟨?_, ?_, ?_, ?_⟩
  · intro x y hx hy
    rw [hx] at hy
    exact Option.some.inj hy
  · intro u hq hc hust
    cases hpx : s.playingId with
    | none => rfl
    | some x =>
      exfalso
      rcases hinv x hpx with ⟨u', hu', _, hust', _⟩ | hm
      · rw [hc] at hu'
        have : u = u' := Option.some.inj hu'
        rw [← this] at hust'
        rw [hust] at hust'
        exact Bool.noConfusion hust'
      · rw [hq] at hm
        exact absurd hm (List.not_mem_nil _)
  · intro u hq hc
    cases hid : u.id with
    | some j => simp [utterFinish, hid]
    | none =>
      show (if u.id.isSome then none else s.playingId) = none
      rw [hid]
      cases hpx : s.playingId with
      | none => rfl
      | some x =>
        exfalso
        rcases hinv x hpx with ⟨u', hu', huid', _, _⟩ | hm
        · rw [hc] at hu'
          have : u = u' := Option.some.inj hu'
          rw [← this] at huid'
          rw [hid] at huid'
          exact Option.noConfusion huid'
        · rw [hq] at hm
          exact absurd hm (List.not_mem_nil _)
  · intro u i hid
    show (match u.id with | some j => some j | none => s.playingId) = some i
    rw [hid]

/-- Witness for single_playing_id: right after a speak call from the
idle engine the playing id is still clear. -/
theorem single_playing_id_witness :
    (speakWord "hello" (some "0-0") ⟨[], "", false, none, [], none⟩).playingId = none :=
  (single_playing_id _
    (SpeechReachable.step (SpeechReachable.init [] "" false)
      (EngineStep.speak _ "hello" (some "0-0")))).2.1
    _ rfl rfl rfl

lemma cleanChars_eq_filter (l : List Char) :
    cleanChars l = l.filter (fun c => !(isMarkupChar c)) := by
  induction l with
  | nil => rfl
  | cons c rest ih =>
    by_cases h : isMarkupChar c <;> simp [cleanChars, List.filter_cons, h, ih]

/-- C5: speakWord first cancels the in-flight utterance (its pending
event joins the cancelled queue and a fresh utterance replaces it),
hands the engine the text with every markup character (slash,
backslash, braces, brackets, hyphen) removed and nothing else changed,
and sets the rate to 0.5 when the slow toggle is on and 0.9
otherwise. -/
theorem speakWord_cancels_strips_rates (s : SpeechState) (text : String) (oid : Option String) :
    (speakWord text oid s).cancelled = s.cancelled ++ (s.current.map Utter.id).toList ∧
    ((speakWord text oid s).current.map Utter.id) = some oid ∧
    ((speakWord text oid s).current.map Utter.text) = some (cleanText text) ∧
    ((speakWord text oid s).current.map Utter.rate) =
      some (if s.isSlow then (0.5 : ℚ) else 0.9) ∧
    (cleanText text).toList = text.toList.filter (fun c => !(isMarkupChar c)) ∧
    (∀ c ∈ (cleanText text).toList, isMarkupChar c = false) := by
  refine ⟨rfl, rfl, rfl, rfl, cleanChars_eq_filter text.toList, ?_⟩
  intro c hc
  have hc' : c ∈ text.toList.filter (fun c => !(isMarkupChar c)) := by
    rw [← cleanChars_eq_filter]
    exact hc
  have := (List.mem_filter.mp hc').2
  simpa using this

/-- Witness for speakWord_cancels_strips_rates: a surviving character
of a concrete stripped text is not a markup character. -/
theorem speakWord_cancels_strips_rates_witness : isMarkupChar 'a' = false :=
  (speakWord_cancels_strips_rates ⟨[], "", false, none, [], none⟩ "a-b" none).2.2.2.2.2
    'a' (by decide)

/-- C10: speakWord called without an item id (as the answer check does
for its feedback) leaves the playing id untouched and hands the engine
an utterance carrying no id, so the utterance's own start, end and
error transitions also leave the playing id untouched: feedback speech
never marks an item as playing. -/
theorem speak_without_id_frame (s : SpeechState) (text : String) :
    (speakWord text none s).playingId = s.playingId ∧
    ((speakWord text none s).current.map Utter.id) = some none ∧
    (∀ u, u.id = none →
      (utterStart u s).playingId = s.playingId ∧ (utterFinish u s).playingId = s.playingId) := by
  refine ⟨rfl, rfl, ?_⟩
  intro u hid
  constructor
  · show (match u.id with | some j => some j | none => s.playingId) = s.playingId
    rw [hid]
  · show (if u.id.isSome then none else s.playingId) = s.playingId
    rw [hid]
    rfl

/-- Witness for speak_without_id_frame: the start event of an id-less
utterance on the idle engine keeps the playing id clear. -/
theorem speak_without_id_frame_witness :
    (utterStart { id := none, text := "hi", voice := none, rate := 0.9, started := false }
      ⟨[], "", false, none, [], none⟩).playingId = none :=
  ((speak_without_id_frame ⟨[], "", false, none, [], none⟩ "hi").2.2
    { id := none, text := "hi", voice := none, rate := 0.9, started := false } rfl).1

/-- C6: toggleReveal flips membership of the id and changes no other
id, and applying it twice restores the revealed set exactly. -/
theorem toggleReveal_involutive (id : String) (s : Finset String) :
    toggleReveal id (toggleReveal id s) = s ∧
    (id ∈ toggleReveal id s ↔ id ∉ s) ∧
    (∀ j, j ≠ id → (j ∈ toggleReveal id s ↔ j ∈ s)) := by
  by_cases h : id ∈ s
  · have e1 : toggleReveal id s = s.erase id := by
      simp only [toggleReveal, if_pos h]
    rw [e1]
    refine ⟨?_, by simp [h], fun j hj => by simp [Finset.mem_erase, hj]⟩
    simp only [toggleReveal, if_neg (Finset.not_mem_erase id s)]
    exact Finset.insert_erase h
  · have e1 : toggleReveal id s = insert id s := by
      simp only [toggleReveal, if_neg h]
    rw [e1]
    refine ⟨?_, by simp [h], fun j hj => by simp [Finset.mem_insert, hj]⟩
    simp only [toggleReveal, if_pos (Finset.mem_insert_self id s)]
    exact Finset.erase_insert h

/-- Witness for toggleReveal_involutive: an unrelated id is unaffected
by a concrete toggle. -/
theorem toggleReveal_involutive_witness :
    ("b" ∈ toggleReveal "a" (∅ : Finset String) ↔ "b" ∈ (∅ : Finset String)) :=
  (toggleReveal_involutive "a" (∅ : Finset String)).2.2 "b" (by decide)

lemma sectionPlaceholderCount_eq (count len : ℕ) :
    sectionPlaceholderCount count len = count - len := by
  unfold sectionPlaceholderCount
  rcases le_total ((count : ℤ) - (len : ℤ)) 0 with h | h
  · rw [max_eq_left h]
    omega
  · rw [max_eq_right h]
    omega

/-- C7: a section whose item list exceeds the configured count renders
every item and no placeholder; a shorter list is followed by exactly
count minus length placeholders, so the rendered rows number exactly
the configured count. -/
theorem section_rows_padding (count : ℕ) (items : List String) :
    (items.length > count →
      sectionRows count items = items.map SectionRow.item ∧
      sectionPlaceholderCount count items.length = 0) ∧
    (items.length < count →
      sectionPlaceholderCount count items.length = count - items.length ∧
      (sectionRows count items).length = count) := by
  constructor
  · intro h
    have h0 : sectionPlaceholderCount count items.length = 0 := by
      rw [sectionPlaceholderCount_eq]
      omega
    constructor
    · unfold sectionRows
      rw [h0]
      simp
    · exact h0
  · intro h
    refine ⟨sectionPlaceholderCount_eq count items.length, ?_⟩
    unfold sectionRows
    rw [sectionPlaceholderCount_eq]
    simp only [List.length_append, List.length_map, List.length_range]
    omega

/-- Witness for section_rows_padding on a concrete long list and a
concrete short one. -/
theorem section_rows_padding_witness :
    sectionRows 3 ["a", "b", "c", "d"] = (["a", "b", "c", "d"].map SectionRow.item) ∧
    (sectionRows 5 ["a"]).length = 5 :=
  ⟨((section_rows_padding 3 ["a", "b", "c", "d"]).1 (by decide)).1,
   ((section_rows_padding 5 ["a"]).2 (by decide)).2⟩

lemma pickDefaultVoice_mem {vs : List Voice} {v : Voice}
    (h : pickDefaultVoice vs = some v) : v ∈ vs := by
  unfold pickDefaultVoice at h
  cases hg : vs.find? (fun v => strIncludes v.name "Google US English") with
  | some w =>
    rw [hg] at h
    cases h
    exact List.mem_of_find?_eq_some hg
  | none =>
    rw [hg] at h
    cases hn : vs.find? (fun v => strIncludes v.name "Natural") with
    | some w =>
      rw [hn] at h
      cases h
      exact List.mem_of_find?_eq_some hn
    | none =>
      rw [hn] at h
      cases he : vs.find? (fun v => v.lang = "en-US") with
      | some w =>
        rw [he] at h
        cases h
        exact List.mem_of_find?_eq_some he
      | none =>
        rw [he] at h
        cases vs with
        | nil => exact Option.noConfusion h
        | cons x xs =>
          cases h
          exact List.mem_cons_self _ _

/-- C8 counterexample: with a non-US voice named Natural and a plain
U.S. English voice available (in either order, so however the initial
reordering permutes them), the default selection is the non-US Natural
voice, not a U.S. English one. -/
theorem default_voice_counterexample :
    loadVoicesSelect "" [voiceNaturalFr, voicePlainUS] = voiceNaturalFr.voiceURI ∧
    loadVoicesSelect "" [voicePlainUS, voiceNaturalFr] = voiceNaturalFr.voiceURI ∧
    voiceNaturalFr.lang ≠ "en-US" ∧ voicePlainUS.lang = "en-US" ∧
    voicePlainUS ∈ [voiceNaturalFr, voicePlainUS] := by
  decide

/-- C8 amended: the default selection always picks a voice of the list
when one exists, and prefers, in order: a voice whose name contains
Google US English; a voice whose name contains Natural, in any
language; a voice with language en-US; and when no voice matches any of
the three preferences, it is exactly the first voice of the (reordered)
list. -/
theorem default_voice_preference_chain (vs : List Voice) :
    (vs ≠ [] → ∃ v ∈ vs, pickDefaultVoice vs = some v) ∧
    ((∃ v ∈ vs, strIncludes v.name "Google US English" = true) →
      ∃ v, pickDefaultVoice vs = some v ∧ strIncludes v.name "Google US English" = true) ∧
    ((∀ v ∈ vs, strIncludes v.name "Google US English" = false) →
      (∃ v ∈ vs, strIncludes v.name "Natural" = true) →
      ∃ v, pickDefaultVoice vs = some v ∧ strIncludes v.name "Natural" = true) ∧
    ((∀ v ∈ vs, strIncludes v.name "Google US English" = false) →
      (∀ v ∈ vs, strIncludes v.name "Natural" = false) →
      (∃ v ∈ vs, v.lang = "en-US") →
      ∃ v, pickDefaultVoice vs = some v ∧ v.lang = "en-US") ∧
    ((∀ v ∈ vs, strIncludes v.name "Google US English" = false) →
      (∀ v ∈ vs, strIncludes v.name "Natural" = false) →
      (∀ v ∈ vs, v.lang ≠ "en-US") →
      pickDefaultVoice vs = vs.head?) := by
  have hnone : ∀ (p : Voice → Bool), (∀ v ∈ vs, p v = false) → vs.find? p = none := by
    intro p hp
    rw [List.find?_eq_none]
    intro x hx
    rw [hp x hx]
    exact Bool.false_ne_true
  refine ⟨?_, ?_, ?_, ?_, ?_⟩
  · intro hne
    cases hp : pickDefaultVoice vs with
    | some v => exact ⟨v, pickDefaultVoice_mem hp, rfl⟩
    | none =>
      exfalso
      unfold pickDefaultVoice at hp
      cases hg : vs.find? (fun v => strIncludes v.name "Google US English") with
      | some w => rw [hg] at hp; exact Option.noConfusion hp
      | none =>
        rw [hg] at hp
        cases hn : vs.find? (fun v => strIncludes v.name "Natural") with
        | some w => rw [hn] at hp; exact Option.noConfusion hp
        | none =>
          rw [hn] at hp
          cases he : vs.find? (fun v => v.lang = "en-US") with
          | some w => rw [he] at hp; exact Option.noConfusion hp
          | none =>
            rw [he] at hp
            exact hne (List.head?_eq_none_iff.mp hp)
  · rintro ⟨v0, hv0, hg0⟩
    cases hg : vs.find? (fun v => strIncludes v.name "Google US English") with
    | none =>
      exfalso
      exact (List.find?_eq_none.mp hg v0 hv0) hg0
    | some w =>
      have hpw := List.find?_some hg
      refine ⟨w, ?_, hpw⟩
      unfold pickDefaultVoice
      rw [hg]
  · rintro hng ⟨v0, hv0, hn0⟩
    cases hn : vs.find? (fun v => strIncludes v.name "Natural") with
    | none =>
      exfalso
      exact (List.find?_eq_none.mp hn v0 hv0) hn0
    | some w =>
      have hpw := List.find?_some hn
      refine ⟨w, ?_, hpw⟩
      unfold pickDefaultVoice
      rw [hnone _ hng, hn]
  · rintro hng hnn ⟨v0, hv0, he0⟩
    cases he : vs.find? (fun v => v.lang = "en-US") with
    | none =>
      exfalso
      have := List.find?_eq_none.mp he v0 hv0
      rw [he0] at this
      exact this (by simp)
    | some w =>
      have hw := List.find?_some he
      refine ⟨w, ?_, by simpa using hw⟩
      unfold pickDefaultVoice
      rw [hnone _ hng, hnone _ hnn, he]
  · intro hng hnn hne
    have he : vs.find? (fun v => v.lang = "en-US") = none := by
      rw [List.find?_eq_none]
      intro x hx
      simp [hne x hx]
    unfold pickDefaultVoice
    rw [hnone _ hng, hnone _ hnn, he]

/-- Witness for default_voice_preference_chain at a one-voice list with
no Google or Natural name, and at a one-voice list matching none of the
preferences, where the first voice is chosen. -/
theorem default_voice_preference_chain_witness :
    (∃ v, pickDefaultVoice [voicePlainUS] = some v ∧ v.lang = "en-US") ∧
    pickDefaultVoice [{ name := "Zoe", lang := "de-DE", voiceURI := "uri-zoe" }] =
      [({ name := "Zoe", lang := "de-DE", voiceURI := "uri-zoe" } : Voice)].head? :=
  ⟨(default_voice_preference_chain [voicePlainUS]).2.2.2.1 (by decide) (by decide)
      ⟨voicePlainUS, by decide, by decide⟩,
   (default_voice_preference_chain [{ name := "Zoe", lang := "de-DE", voiceURI := "uri-zoe" }]).2.2.2.2
      (by decide) (by decide) (by decide)⟩
